import Mathlib

set_option linter.unusedVariables false
set_option linter.unnecessarySeqFocus false
set_option linter.unusedTactic false

/-!
Verification development for the 1c-log-viewer core (src/parser/value.rs,
src/parser/fields.rs, src/parser/compiler.rs, src/parser/logdata.rs,
src/parser/mod.rs), shallowly embedded in Lean.

Modelling conventions:
* Rust `f64` is modelled by `F64`: an exact rational for finite values plus
  signed infinity and NaN.  Decimal-to-float rounding and overflow-to-infinity
  are idealised (the parsed rational is kept exactly); no theorem below
  depends on rounding.
* `chrono::NaiveDateTime` is modelled as an abstract `Int` timestamp measured
  in seconds (chrono's `Duration::seconds/minutes/hours/days/weeks` are exact
  multiples of seconds).
* Rust strings are modelled as Lean `String` / `List Char`; the byte-level
  scanners of fields.rs operate on ASCII records, where bytes and chars
  coincide.  Multi-byte UTF-8 positions are not modelled byte-accurately.
* External crates (`regex`, `chrono` parsing) are modelled where the code's
  behaviour depends on them; regex *syntax validation* is not modelled
  (`Regex::new` is taken to succeed), and `char::is_numeric` is modelled as
  the ASCII digit test.
-/

/-- Model of Rust `f64`: exact finite rationals (kept as an unnormalised
numerator/denominator pair with positive denominator) plus signed infinity
and NaN.  Rounding of decimal literals is idealised (kept exact). -/
inductive F64 where
  | finite (num : ℤ) (den : ℕ)
  | inf (neg : Bool)
  | nan
deriving DecidableEq, Repr

/-- IEEE equality on the `f64` model: `NaN` is not equal to anything,
infinities compare by sign, finite values by their rational value
(cross-multiplication of the fraction representations).
Models Rust `f64 == f64`. -/
def F64.beq : F64 → F64 → Bool
  | .finite a b, .finite c d => a * (d : ℤ) == c * (b : ℤ)
  | .inf a, .inf b => a == b
  | _, _ => false

/-- Numeric value of a list of ASCII digits (as read left to right). -/
def digitsVal (l : List Char) : ℕ :=
  l.foldl (fun a c => 10 * a + (c.toNat - 48)) 0

/-- Model of Rust `str::parse::<f64>` (core dec2flt grammar): optional sign,
then either a case-insensitive special (`inf`, `infinity`, `nan`) or a
decimal mantissa (`digits`, `digits.`, `digits.digits`, `.digits`) with an
optional exponent `([eE][+-]?digits)`.  The whole input must be consumed;
no surrounding whitespace is accepted.  The numeric value is kept as an
exact rational (see the header note on rounding). -/
def rustParseF64Chars (l : List Char) : Option F64 :=
  let (neg, t) :=
    match l with
    | '+' :: t => (false, t)
    | '-' :: t => (true, t)
    | t => (false, t)
  let low := t.map Char.toLower
  if low = "inf".data ∨ low = "infinity".data then
    some (.inf neg)
  else if low = "nan".data then
    some .nan
  else
    let ip := t.takeWhile Char.isDigit
    let r1 := t.dropWhile Char.isDigit
    let (hasDot, fp, r2) :=
      match r1 with
      | '.' :: r => (true, r.takeWhile Char.isDigit, r.dropWhile Char.isDigit)
      | _ => (false, ([] : List Char), r1)
    if ip = [] ∧ fp = [] then
      none
    else
      let mantNum : ℤ := (digitsVal ip : ℤ) * (10 : ℤ) ^ fp.length + (digitsVal fp : ℤ)
      let mantDen : ℕ := 10 ^ fp.length
      let _ := hasDot
      match r2 with
      | [] => some (.finite (if neg then -mantNum else mantNum) mantDen)
      | 'e' :: r3 | 'E' :: r3 =>
        let (eneg, r4) :=
          match r3 with
          | '+' :: r => (false, r)
          | '-' :: r => (true, r)
          | r => (false, r)
        let ed := r4.takeWhile Char.isDigit
        let r5 := r4.dropWhile Char.isDigit
        if ed = [] ∨ r5 ≠ [] then
          none
        else
          let e : ℕ := digitsVal ed
          let vNum : ℤ := if eneg then mantNum else mantNum * (10 : ℤ) ^ e
          let vDen : ℕ := if eneg then mantDen * 10 ^ e else mantDen
          some (.finite (if neg then -vNum else vNum) vDen)
      | _ => none

/-- `rustParseF64Chars` on a `String`. -/
def rustParseF64 (s : String) : Option F64 :=
  rustParseF64Chars s.data

/-- Model of `Value` (value.rs): a tagged dynamic scalar.  `PartialString` is
modelled by its character content; `NaiveDateTime` by an `Int` timestamp. -/
inductive Value where
  | string (s : String)
  | number (n : F64)
  | dateTime (t : Int)
  | multiValue (vs : List Value)

/-- Model of `Value::new` (value.rs lines 74-83): the slice content is
promoted to `Number` exactly when `str::parse::<f64>` succeeds on the raw
(untrimmed) content; otherwise it stays a string. -/
def Value.new (s : String) : Value :=
  match rustParseF64 s with
  | some v => .number v
  | none => .string s

/-- Whether a `Value` is the `Number` variant. -/
def Value.isNumber : Value → Bool
  | .number _ => true
  | _ => false

/-- Model of `impl PartialEq<String> for Value` (value.rs lines 145-152):
true only for the `String` variant with equal content. -/
def Value.eqString : Value → String → Bool
  | .string s, other => s == other
  | _, _ => false

/-- Model of `impl PartialEq<f64> for Value` (value.rs lines 163-170):
true only for the `Number` variant, by IEEE equality. -/
def Value.eqF64 : Value → F64 → Bool
  | .number n, other => F64.beq n other
  | _, _ => false

/-- Model of `impl PartialEq<NaiveDateTime> for Value` (value.rs lines
181-188): true only for the `DateTime` variant. -/
def Value.eqDate : Value → Int → Bool
  | .dateTime d, other => d == other
  | _, _ => false

/-- Model of `FieldMap` (mod.rs lines 21-72): an insertion-ordered map from
key to `Value`, backed by an `IndexMap` (unique keys, insertion order). -/
structure FieldMap where
  entries : List (String × Value)

/-- Model of `FieldMap::new`. -/
def FieldMap.new : FieldMap := ⟨[]⟩

/-- Upgrade rule of `FieldMap::insert` for an existing binding: a `MultiValue`
gets the new value appended; any other value is upgraded to a two-element
`MultiValue`. -/
def Value.upgrade (inner v : Value) : Value :=
  match inner with
  | .multiValue arr => .multiValue (arr ++ [v])
  | _ => .multiValue [inner, v]

/-- Model of `FieldMap::insert` (mod.rs lines 33-45): if the key is present
its value is upgraded via `Value.upgrade`; otherwise the pair is appended. -/
def FieldMap.insert (m : FieldMap) (k : String) (v : Value) : FieldMap :=
  if m.entries.any (fun p => p.1 == k) then
    ⟨m.entries.map (fun p => if p.1 == k then (p.1, p.2.upgrade v) else p)⟩
  else
    ⟨m.entries ++ [(k, v)]⟩

/-- Model of `FieldMap::get` (mod.rs lines 52-54). -/
def FieldMap.get (m : FieldMap) (k : String) : Option Value :=
  (m.entries.find? (fun p => p.1 == k)).map (fun p => p.2)

/-- Model of `Token` (compiler.rs lines 10-31).  `Regex` tokens carry their
pattern text. -/
inductive Token where
  | WHERE
  | AND
  | OR
  | openBrace
  | closeBrace
  | identifier (s : String)
  | string (s : String)
  | number (n : F64)
  | regex (pattern : String)
  | date (d : Int)
  | DESC
  | ASC
  | less
  | greater
  | equal
  | le
  | ge
  | ne
deriving DecidableEq, Repr

/-- Model of `impl PartialEq for Token` (compiler.rs lines 58-82): structural
equality, except that `Number` uses IEEE `f64` equality and `Regex` tokens
are never equal (the `Regex` arm is commented out in the source, so it falls
through to `false`). -/
def Token.beq : Token → Token → Bool
  | .WHERE, .WHERE => true
  | .AND, .AND => true
  | .OR, .OR => true
  | .openBrace, .openBrace => true
  | .closeBrace, .closeBrace => true
  | .identifier a, .identifier b => a == b
  | .string a, .string b => a == b
  | .number a, .number b => F64.beq a b
  | .date a, .date b => a == b
  | .DESC, .DESC => true
  | .ASC, .ASC => true
  | .less, .less => true
  | .greater, .greater => true
  | .equal, .equal => true
  | .le, .le => true
  | .ge, .ge => true
  | .ne, .ne => true
  | _, _ => false

/-- Model of `Query` (compiler.rs lines 109-122). -/
inductive Query where
  | expr (w : Option Query) (o : Option Query)
  | regex (pattern : String)
  | and (l r : Query)
  | or (l r : Query)
  | equal (l r : Token)
  | ge (l r : Token)
  | le (l r : Token)
  | greater (l r : Token)
  | less (l r : Token)
  | ne (l r : Token)

/-- Structural equality on queries over `Token.beq`.  The snapshot lacks a
`PartialEq` impl for `Query` (set_filter's `!=` needs one); we model it as
the derived structural equality over `Token`'s `PartialEq`. -/
def Query.beq : Query → Query → Bool
  | .expr (some a) b, .expr (some c) d =>
    Query.beq a c && (match b, d with
      | some x, some y => Query.beq x y
      | none, none => true
      | _, _ => false)
  | .expr none b, .expr none d =>
    (match b, d with
      | some x, some y => Query.beq x y
      | none, none => true
      | _, _ => false)
  | .regex _, .regex _ => false
  | .and a b, .and c d => Query.beq a c && Query.beq b d
  | .or a b, .or c d => Query.beq a c && Query.beq b d
  | .equal a b, .equal c d => Token.beq a c && Token.beq b d
  | .ge a b, .ge c d => Token.beq a c && Token.beq b d
  | .le a b, .le c d => Token.beq a c && Token.beq b d
  | .greater a b, .greater c d => Token.beq a c && Token.beq b d
  | .less a b, .less c d => Token.beq a c && Token.beq b d
  | .ne a b, .ne c d => Token.beq a c && Token.beq b d
  | _, _ => false

/-- Ordering on the `f64` model, models Rust `PartialOrd<f64>`:
`none` when either side is NaN. -/
def F64.partialCmp : F64 → F64 → Option Ordering
  | .finite a b, .finite c d =>
    some (if a * (d : ℤ) < c * (b : ℤ) then .lt
          else if a * (d : ℤ) = c * (b : ℤ) then .eq else .gt)
  | .finite _ _, .inf n => some (if n then .gt else .lt)
  | .inf n, .finite _ _ => some (if n then .lt else .gt)
  | .inf a, .inf b =>
    some (if a = b then .eq else if a then .lt else .gt)
  | _, _ => none

/-- Model of `impl PartialOrd<String> for Value` (value.rs 154-161). -/
def Value.cmpString : Value → String → Option Ordering
  | .string s, other => some (compare s other)
  | _, _ => none

/-- Model of `impl PartialOrd<f64> for Value` (value.rs 172-179). -/
def Value.cmpF64 : Value → F64 → Option Ordering
  | .number n, other => F64.partialCmp n other
  | _, _ => none

/-- Model of `impl PartialOrd<NaiveDateTime> for Value` (value.rs 190-197). -/
def Value.cmpDate : Value → Int → Option Ordering
  | .dateTime d, other => some (compare d other)
  | _, _ => none

/-- Rust comparison operators derived from `partial_cmp`:
`a < b` holds iff `partial_cmp = Some(Less)`, and so on. -/
def cmpIs (o : Option Ordering) (want : Ordering) : Bool :=
  match o with
  | some x => x == want
  | none => false

/-- True iff `partial_cmp` is `Some(Less)` or `Some(Equal)` (Rust `<=`). -/
def cmpLe (o : Option Ordering) : Bool :=
  match o with
  | some .lt => true
  | some .eq => true
  | _ => false

/-- True iff `partial_cmp` is `Some(Greater)` or `Some(Equal)` (Rust `>=`). -/
def cmpGe (o : Option Ordering) : Bool :=
  match o with
  | some .gt => true
  | some .eq => true
  | _ => false

/-- Runtime environment for query evaluation: `rmatch pat s` models
`Regex::is_match` of the compiled pattern against `s`, and `showValue`
models the `Display` rendering of a `Value` (used when an `=` compares a
field against a regex literal).  Both are external to the repository, so
they are parameters of the evaluator. -/
structure REnv where
  rmatch : String → String → Bool
  showValue : Value → String

/-- Model of `Query::accept` (compiler.rs lines 125-264) evaluated against a
record's field map (the collection's `accept_row` builds a `FieldMap` and
feeds it to the filter, logdata.rs lines 27-44).  In the `Regex` arm the
source reads the record's `event`/`process` attributes and its text fields;
in the field-map view these are the string-valued entries of the map. -/
def Query.accept (env : REnv) : Query → FieldMap → Bool
  | .expr w _, m =>
    match w with
    | some q => Query.accept env q m
    | none => true
  | .regex pat, m =>
    m.entries.any (fun p =>
      match p.2 with
      | .string s => env.rmatch pat s
      | _ => false)
  | .and l r, m => Query.accept env l m && Query.accept env r m
  | .or l r, m => Query.accept env l m || Query.accept env r m
  | .equal l r, m =>
    match l, r with
    | .identifier k, .string v => ((m.get k).map (fun x => x.eqString v)).getD false
    | .identifier k, .number v => ((m.get k).map (fun x => x.eqF64 v)).getD false
    | .identifier k, .regex pat =>
      ((m.get k).map (fun x => env.rmatch pat (env.showValue x))).getD false
    | .identifier k, .date v => ((m.get k).map (fun x => x.eqDate v)).getD false
    | _, _ => false
  | .ge l r, m =>
    match l, r with
    | .identifier k, .string v => ((m.get k).map (fun x => cmpGe (x.cmpString v))).getD false
    | .identifier k, .number v => ((m.get k).map (fun x => cmpGe (x.cmpF64 v))).getD false
    | .identifier k, .date v => ((m.get k).map (fun x => cmpGe (x.cmpDate v))).getD false
    | _, _ => false
  | .le l r, m =>
    match l, r with
    | .identifier k, .string v => ((m.get k).map (fun x => cmpLe (x.cmpString v))).getD false
    | .identifier k, .number v => ((m.get k).map (fun x => cmpLe (x.cmpF64 v))).getD false
    | .identifier k, .date v => ((m.get k).map (fun x => cmpLe (x.cmpDate v))).getD false
    | _, _ => false
  | .greater l r, m =>
    match l, r with
    | .identifier k, .string v => ((m.get k).map (fun x => cmpIs (x.cmpString v) .gt)).getD false
    | .identifier k, .number v => ((m.get k).map (fun x => cmpIs (x.cmpF64 v) .gt)).getD false
    | .identifier k, .date v => ((m.get k).map (fun x => cmpIs (x.cmpDate v) .gt)).getD false
    | _, _ => false
  | .less l r, m =>
    match l, r with
    | .identifier k, .string v => ((m.get k).map (fun x => cmpIs (x.cmpString v) .lt)).getD false
    | .identifier k, .number v => ((m.get k).map (fun x => cmpIs (x.cmpF64 v) .lt)).getD false
    | .identifier k, .date v => ((m.get k).map (fun x => cmpIs (x.cmpDate v) .lt)).getD false
    | _, _ => false
  | .ne l r, m =>
    match l, r with
    | .identifier k, .string v => ((m.get k).map (fun x => !(x.eqString v))).getD false
    | .identifier k, .number v => ((m.get k).map (fun x => !(x.eqF64 v))).getD false
    | .identifier k, .date v => ((m.get k).map (fun x => !(x.eqDate v))).getD false
    | _, _ => false

/-! ## Field iterator (fields.rs)

The byte-driven state machine producing `(key, value)` pairs from one
record's bytes.  The `Cell`-based mutable cursor of the source is modelled
by passing an explicit `Fields` value (reader, parse state, index).  Two
outcomes of the source that are not ordinary returns are represented
explicitly: an infinite loop (unclosed quote / unterminated bare value) and
a panic (`unreachable!()` or `Option::unwrap` on `None`) are both modelled
as the `none` result of the outer `Option`.
-/

/-- Model of `ParseState` (fields.rs lines 7-15). -/
inductive FState where
  | startLogLine
  | duration
  | eventField
  | undefined
  | key
  | value
  | finish
deriving DecidableEq

/-- Model of `Fields` (fields.rs lines 25-29): the record text, the current
parse state and the byte cursor. -/
structure Fields where
  reader : List Char
  state : FState
  index : Nat
deriving DecidableEq

/-- Model of `Fields::new`. -/
def Fields.new (s : String) : Fields :=
  ⟨s.data, .startLogLine, 0⟩

/-- Core loop of `Fields::read_until` (fields.rs lines 44-60) on the suffix
of the reader starting at the cursor: the number of bytes consumed
(reading stops after the first occurrence of `find`, or at the end of
input). -/
def readUntilReads (find : Char) : List Char → Nat
  | [] => 0
  | c :: rest => if c = find then 1 else 1 + readUntilReads find rest

/-- Model of `Fields::read_until` (fields.rs lines 44-60): consumes bytes up
to and including the first `find`; returns the consumed bytes minus the
final one, or `None` when that slice is empty (separator first, or end of
input).  Note that when `find` is absent the final byte read is treated as
if it were the separator. -/
def Fields.readUntil (f : Fields) (find : Char) : Option (List Char) × Fields :=
  let reads := readUntilReads find (f.reader.drop f.index)
  let size := reads - 1
  ((if size = 0 then none else some ((f.reader.drop f.index).take size)),
   { f with index := f.index + reads })

/-- Quoted-value scan of `Fields::read_value` (fields.rs lines 91-112),
relative to the byte after the opening quote.  Returns
`(offset of closing quote, offset just after the byte following it, that
byte)`; `none` models the source's infinite loop when the closing quote is
never found, and its `unwrap` panic when the quote is the final byte. -/
def scanQuote (q : Char) : List Char → Option (Nat × Nat × Char)
  | [] => none
  | c :: rest =>
    if (c = '\'' ∨ c = '"') ∧ c = q then
      match rest with
      | [] => none
      | c2 :: rest2 =>
        if c2 = c then
          (scanQuote q rest2).map (fun p => (p.1 + 2, p.2.1 + 2, p.2.2))
        else
          some (0, 2, c2)
    else
      (scanQuote q rest).map (fun p => (p.1 + 1, p.2.1 + 1, p.2.2))

/-- Bare-value scan of `Fields::read_value` (fields.rs lines 113-125):
offset of the first `\r`, `\n` or `,` together with that byte; `none`
models the source's infinite loop when the record ends first. -/
def scanToNext : List Char → Option (Nat × Char)
  | [] => none
  | c :: rest =>
    if c = '\r' ∨ c = '\n' ∨ c = ',' then some (0, c)
    else (scanToNext rest).map (fun p => (p.1 + 1, p.2))

/-- The `Finish` arm of `Fields::read_value` (fields.rs lines 126-141):
`\r` additionally consumes the following byte (returning quietly when there
is none, via the `?` on `read_byte`), `\n` ends the record, `,` hands over
to the key state; any other byte is the source's `unreachable!()` panic
(modelled as `none`).  `i` is the cursor just after the finish byte. -/
def finishVal (reader : List Char) (st : FState) (v : List Char) (c : Char)
    (i : Nat) : Option (Option (List Char) × Fields) :=
  if c = '\r' then
    if i < reader.length then some (some v, ⟨reader, .finish, i + 1⟩)
    else some (none, ⟨reader, st, i⟩)
  else if c = '\n' then some (some v, ⟨reader, .finish, i⟩)
  else if c = ',' then some (some v, ⟨reader, .key, i⟩)
  else none

/-- Model of `Fields::read_value` (fields.rs lines 71-146).  The outer
`none` stands for the source panicking or looping forever; the inner `none`
for its quiet early return (`?` on `read_byte`) that ends iteration. -/
def Fields.readValue (f : Fields) : Option (Option (List Char) × Fields) :=
  match f.reader.drop f.index with
  | [] => none
  | c :: _ =>
    let i1 := f.index + 1
    if c = '\r' ∨ c = '\n' ∨ c = ',' then
      finishVal f.reader f.state [] c i1
    else if c = '\'' ∨ c = '"' then
      match scanQuote c (f.reader.drop i1) with
      | some (e, i2, c2) =>
        finishVal f.reader f.state ((f.reader.drop i1).take e) c2 (i1 + i2)
      | none => none
    else
      match scanToNext (f.reader.drop i1) with
      | some (t, c2) =>
        finishVal f.reader f.state ((f.reader.drop f.index).take (t + 1)) c2
          (i1 + t + 1)
      | none => none

/-- The `Key` → `Value` tail of one `Fields::parse_field` call (fields.rs
lines 173-180): read the key up to `=`, switch to the value state, read the
value. -/
def Fields.keyValue (f : Fields) : Option (Option (String × List Char) × Fields) :=
  match f.readUntil '=' with
  | (some k, f1) =>
    match Fields.readValue { f1 with state := .value } with
    | some (some v, f2) => some (some (String.mk k, v), f2)
    | some (none, f2) => some (none, f2)
    | none => none
  | (none, f1) => some (none, { f1 with state := .key })

/-- Model of `Fields::parse_field` (fields.rs lines 148-189).  The outer
`none` stands for the source panicking or looping forever (see
`Fields.readValue`); the inner `none` is the source's `None`, ending
iteration. -/
def Fields.parseField (f : Fields) : Option (Option (String × List Char) × Fields) :=
  match f.state with
  | .startLogLine =>
    match f.readUntil '-' with
    | (some v, f1) => some (some ("time", v), { f1 with state := .duration })
    | (none, f1) => some (none, f1)
  | .duration =>
    match f.readUntil ',' with
    | (some v, f1) => some (some ("duration", v), { f1 with state := .eventField })
    | (none, f1) => some (none, f1)
  | .eventField =>
    match f.readUntil ',' with
    | (some v, f1) => some (some ("event", v), { f1 with state := .undefined })
    | (none, f1) => some (none, f1)
  | .undefined =>
    match f.readUntil ',' with
    | (some _, f1) => Fields.keyValue { f1 with state := .key }
    | (none, f1) => some (none, f1)
  | .key => Fields.keyValue f
  | .value =>
    match f.readValue with
    | some (some v, f2) => some (some ("", v), f2)
    | some (none, f2) => some (none, f2)
    | none => none
  | .finish => some (none, { f with state := .startLogLine })

/-! ## Query compiler (compiler.rs)

`NaiveDateTime` values are `Int` timestamps; the absolute encoding of
calendar dates is an injective packing (no claim depends on absolute
values).  `chrono::Duration::{seconds,minutes,hours,days,weeks}` are exact
multiples of seconds on that timeline.
-/

/-- Model of `ParseError` (compiler.rs lines 84-93).  The error payloads of
the wrapped external errors (regex/chrono/float) are dropped. -/
inductive ParseError where
  | unexpectedToken (t : Token)
  | unexpectedChar (c : Char)
  | regexParseError
  | timeParseError
  | floatParseError
  | invalidDate
  | unexpectedEndOfInput
deriving DecidableEq, Repr

/-- Leap-year rule of the proleptic Gregorian calendar. -/
def isLeapYear (y : ℕ) : Bool :=
  (y % 4 = 0 ∧ y % 100 ≠ 0) ∨ y % 400 = 0

/-- Days in a month (1-12). -/
def daysInMonth (y m : ℕ) : ℕ :=
  if m = 2 then (if isLeapYear y then 29 else 28)
  else if m = 4 ∨ m = 6 ∨ m = 9 ∨ m = 11 then 30
  else 31

/-- Injective packing of a local date-time into the `Int` timeline
(seconds granularity; not real epoch arithmetic — see the section note). -/
def packDateTime (y mo d h mi s : ℕ) : Int :=
  (s : Int) + 60 * ((mi : Int) + 60 * ((h : Int) + 24 * ((d : Int) + 32 * ((mo : Int) + 13 * (y : Int)))))

/-- One numeric field of a chrono format string: leading digits and the
rest. -/
def chronoNum (l : List Char) : Option (ℕ × List Char) :=
  let ds := l.takeWhile Char.isDigit
  if ds = [] then none else some (digitsVal ds, l.dropWhile Char.isDigit)

/-- Model of `NaiveDateTime::parse_from_str(s, "%Y-%m-%d %H:%M:%S")`
(chrono): numeric fields separated by the literal separators, full
consumption, with calendar/clock range checks. -/
def chronoParseDateTime (s : String) : Option Int :=
  match chronoNum s.data with
  | none => none
  | some (y, r1) =>
    match r1 with
    | '-' :: r2 =>
      match chronoNum r2 with
      | none => none
      | some (mo, r3) =>
        match r3 with
        | '-' :: r4 =>
          match chronoNum r4 with
          | none => none
          | some (d, r5) =>
            match r5 with
            | ' ' :: r6 =>
              match chronoNum r6 with
              | none => none
              | some (h, r7) =>
                match r7 with
                | ':' :: r8 =>
                  match chronoNum r8 with
                  | none => none
                  | some (mi, r9) =>
                    match r9 with
                    | ':' :: r10 =>
                      match chronoNum r10 with
                      | none => none
                      | some (sec, r11) =>
                        if r11 = [] ∧ 1 ≤ mo ∧ mo ≤ 12 ∧ 1 ≤ d ∧
                            d ≤ daysInMonth y mo ∧ h ≤ 23 ∧ mi ≤ 59 ∧ sec ≤ 59 then
                          some (packDateTime y mo d h mi sec)
                        else none
                    | _ => none
                | _ => none
            | _ => none
        | _ => none
    | _ => none

/-- Model of the Rust cast `f64 as i64`: truncation toward zero, saturating
at the `i64` bounds; NaN casts to 0. -/
def f64AsI64 : F64 → Int
  | .finite n d => max (-(2 ^ 63)) (min (Int.tdiv n (d : ℤ)) (2 ^ 63 - 1))
  | .inf neg => if neg then -(2 ^ 63) else 2 ^ 63 - 1
  | .nan => 0

/-- Interpretation of the text between the quotes of a date literal
(`Compiler::parse_date`, compiler.rs lines 286-327): `now`,
`now-<digits><unit>` with unit in s/m/h/d/w, or a `%Y-%m-%d %H:%M:%S`
date-time.  The digits are parsed through `str::parse::<f64>` and cast
with `as i64`, exactly as in the source. -/
def interpretDate (now : Int) (tmp : String) : Except ParseError Token :=
  if tmp.startsWith "now" then
    match tmp.data.drop 3 with
    | [] => .ok (.date now)
    | '-' :: tail =>
      let ds := tail.takeWhile Char.isDigit
      let tl2 := tail.dropWhile Char.isDigit
      match rustParseF64Chars ds with
      | none => .error .floatParseError
      | some off =>
        match tl2 with
        | 's' :: _ => .ok (.date (now - f64AsI64 off))
        | 'm' :: _ => .ok (.date (now - 60 * f64AsI64 off))
        | 'h' :: _ => .ok (.date (now - 3600 * f64AsI64 off))
        | 'd' :: _ => .ok (.date (now - 86400 * f64AsI64 off))
        | 'w' :: _ => .ok (.date (now - 604800 * f64AsI64 off))
        | c :: _ => .error (.unexpectedChar c)
        | [] => .error .unexpectedEndOfInput
    | _ :: _ => .error .invalidDate
  else
    match chronoParseDateTime tmp with
    | some d => .ok (.date d)
    | none => .error .timeParseError

/-- The character ranges of the identifier arm of `Compiler::tokenize`
(`'a'..='z' | 'A'..='Z'`). -/
def rustIsAlpha (c : Char) : Bool :=
  ('a' ≤ c ∧ c ≤ 'z') ∨ ('A' ≤ c ∧ c ≤ 'Z')

/-- Continuation characters of an identifier
(`'a'..='z'|'A'..='Z'|'0'..='9'|'_'|':'` once non-empty). -/
def identCont (c : Char) : Bool :=
  rustIsAlpha c ∨ c.isDigit ∨ c = '_' ∨ c = ':'

/-- Keyword recognition at the end of the identifier arm. -/
def keywordToken (s : String) : Token :=
  if s = "WHERE" then .WHERE
  else if s = "AND" then .AND
  else if s = "OR" then .OR
  else if s = "DESC" then .DESC
  else if s = "ASC" then .ASC
  else .identifier s

/-- Negation of being a double quote (named for termination lemmas). -/
def notDQuote (c : Char) : Bool := c ≠ '"'

/-- Negation of being a single quote (named for termination lemmas). -/
def notSQuote (c : Char) : Bool := c ≠ '\''

/-- Negation of being a slash (named for termination lemmas). -/
def notSlash (c : Char) : Bool := c ≠ '/'

/-- Auxiliary fact used by the tokenizer definitions: `List.dropWhile`
never lengthens a list. -/
def dropWhile_len_le (q : Char → Bool) (l : List Char) :
    (List.dropWhile q l).length ≤ l.length := by
  induction l with
  | nil => simp
  | cons a t ih => by_cases h : q a <;> simp [List.dropWhile_cons, h] <;> omega

/-- Model of `Compiler::tokenize` (compiler.rs lines 329-436), including
`Compiler::parse_numeric` (lines 278-284) inlined at the digit arm:
`parse_numeric` consumes only digits (`char::is_numeric`, modelled as the
ASCII digit test), and the digit arm then advances the iterator by one
further character, discarding it.  `Regex::new` is modelled as always
succeeding (regex syntax validation is external).  `tokenStep` handles one
iteration of the tokenize loop: the token produced at the head of the
input (`none` for a skipped space) and the remaining characters. -/
def tokenStep (now : Int) (c : Char) (rest : List Char) :
    Except ParseError (Option Token × {r1 : List Char // r1.length ≤ rest.length}) :=
  if rustIsAlpha c then
    .ok (some (keywordToken (String.mk (c :: rest.takeWhile identCont))),
      ⟨rest.dropWhile identCont, dropWhile_len_le identCont rest⟩)
  else if c.isDigit then
    match rustParseF64Chars (c :: rest.takeWhile Char.isDigit) with
    | some v =>
      .ok (some (Token.number v),
        ⟨(rest.dropWhile Char.isDigit).drop 1, by
          have := dropWhile_len_le Char.isDigit rest
          simp only [List.length_drop]; omega⟩)
    | none => .error .floatParseError
  else if c = '"' then
    .ok (some (Token.string (String.mk (rest.takeWhile notDQuote))),
      ⟨(rest.dropWhile notDQuote).drop 1, by
        have := dropWhile_len_le notDQuote rest
        simp only [List.length_drop]; omega⟩)
  else if c = '\'' then
    match interpretDate now (String.mk (rest.takeWhile notSQuote)) with
    | .ok t =>
      .ok (some t,
        ⟨(rest.dropWhile notSQuote).drop 1, by
          have := dropWhile_len_le notSQuote rest
          simp only [List.length_drop]; omega⟩)
    | .error e => .error e
  else if c = '/' then
    .ok (some (Token.regex (String.mk (rest.takeWhile notSlash))),
      ⟨(rest.dropWhile notSlash).drop 1, by
        have := dropWhile_len_le notSlash rest
        simp only [List.length_drop]; omega⟩)
  else if c = '(' then .ok (some .openBrace, ⟨rest, Nat.le_refl _⟩)
  else if c = ')' then .ok (some .closeBrace, ⟨rest, Nat.le_refl _⟩)
  else if c = '=' then .ok (some .equal, ⟨rest, Nat.le_refl _⟩)
  else if c = '>' then
    match rest with
    | '=' :: r2 => .ok (some .ge, ⟨r2, by simp⟩)
    | other => .ok (some .greater, ⟨other, Nat.le_refl _⟩)
  else if c = '<' then
    match rest with
    | '=' :: r2 => .ok (some .le, ⟨r2, by simp⟩)
    | other => .ok (some .less, ⟨other, Nat.le_refl _⟩)
  else if c = '!' then
    match rest with
    | '=' :: r2 => .ok (some .ne, ⟨r2, by simp⟩)
    | c2 :: _ => .error (.unexpectedChar c2)
    | [] => .error .unexpectedEndOfInput
  else if c = ' ' then .ok (none, ⟨rest, Nat.le_refl _⟩)
  else .error (.unexpectedChar c)

/-- The `loop` of `Compiler::tokenize`: one `tokenStep` per iteration,
collecting the produced tokens.  Structural recursion on a fuel parameter;
every step leaves a remainder no longer than `rest`, so the `length + 1`
fuel supplied by `tokenize` is never exhausted
(theorem `tokenizeGo_fuel_sufficient`). -/
def tokenizeGo (now : Int) : Nat → List Char → Except ParseError (List Token)
  | 0, _ => .error .unexpectedEndOfInput
  | _ + 1, [] => .ok []
  | fuel + 1, c :: rest =>
    match tokenStep now c rest with
    | .ok (some t, ⟨r1, _⟩) => (tokenizeGo now fuel r1).map (fun ts => t :: ts)
    | .ok (none, ⟨r1, _⟩) => tokenizeGo now fuel r1
    | .error e => .error e

/-- Model of `Compiler::tokenize` on a `String`. -/
def tokenize (now : Int) (program : String) : Except ParseError (List Token) :=
  tokenizeGo now (program.data.length + 1) program.data

/-- Model of `Compiler::compile_value` (compiler.rs lines 438-459): accepts
a string, number, regex (only when `allowReg`) or date token.  The
remaining-token list is returned with a proof that it shrank, used for
termination of the mutual parser. -/
def compileValue (allowReg : Bool) (ts : List Token) :
    Except ParseError (Token × {r : List Token // r.length < ts.length}) :=
  match ts with
  | .string v :: r => .ok (.string v, ⟨r, Nat.lt_succ_self _⟩)
  | .number v :: r => .ok (.number v, ⟨r, Nat.lt_succ_self _⟩)
  | .regex v :: r =>
    if allowReg then .ok (.regex v, ⟨r, Nat.lt_succ_self _⟩)
    else .error (.unexpectedToken (.regex v))
  | .date v :: r => .ok (.date v, ⟨r, Nat.lt_succ_self _⟩)
  | t :: _ => .error (.unexpectedToken t)
  | [] => .error .unexpectedEndOfInput

mutual

/-- Model of `Compiler::compile_condition` (compiler.rs lines 461-504):
either a parenthesised expression — note the source consumes one token
after the inner expression without checking that it is a closing brace —
or `ident op value`. -/
def compileCondition (ts : List Token) :
    Except ParseError (Query × {r : List Token // r.length < ts.length}) :=
  match ts with
  | .openBrace :: rest =>
    match compileExpression rest with
    | .ok (q, ⟨r2, h2⟩) =>
      .ok (q, ⟨r2.drop 1, by simp only [List.length_cons, List.length_drop]; omega⟩)
    | .error e => .error e
  | .identifier s :: rest =>
    match rest with
    | .equal :: r2 =>
      match compileValue true r2 with
      | .ok (v, ⟨r3, h3⟩) =>
        .ok (.equal (.identifier s) v, ⟨r3, by simp only [List.length_cons]; omega⟩)
      | .error e => .error e
    | .greater :: r2 =>
      match compileValue false r2 with
      | .ok (v, ⟨r3, h3⟩) =>
        .ok (.greater (.identifier s) v, ⟨r3, by simp only [List.length_cons]; omega⟩)
      | .error e => .error e
    | .less :: r2 =>
      match compileValue false r2 with
      | .ok (v, ⟨r3, h3⟩) =>
        .ok (.less (.identifier s) v, ⟨r3, by simp only [List.length_cons]; omega⟩)
      | .error e => .error e
    | .ge :: r2 =>
      match compileValue false r2 with
      | .ok (v, ⟨r3, h3⟩) =>
        .ok (.ge (.identifier s) v, ⟨r3, by simp only [List.length_cons]; omega⟩)
      | .error e => .error e
    | .le :: r2 =>
      match compileValue false r2 with
      | .ok (v, ⟨r3, h3⟩) =>
        .ok (.le (.identifier s) v, ⟨r3, by simp only [List.length_cons]; omega⟩)
      | .error e => .error e
    | .ne :: r2 =>
      match compileValue false r2 with
      | .ok (v, ⟨r3, h3⟩) =>
        .ok (.ne (.identifier s) v, ⟨r3, by simp only [List.length_cons]; omega⟩)
      | .error e => .error e
    | t :: _ => .error (.unexpectedToken t)
    | [] => .error .unexpectedEndOfInput
  | t :: _ => .error (.unexpectedToken t)
  | [] => .error .unexpectedEndOfInput
termination_by ts.length * 8
decreasing_by all_goals ((try simp only [List.length_cons, List.length_drop]); omega)

/-- The `while AND` loop of `Compiler::compile_term` (compiler.rs lines
506-513), with the accumulated left-hand query. -/
def compileTermLoop (q : Query) (ts : List Token) :
    Except ParseError (Query × {r : List Token // r.length ≤ ts.length}) :=
  match ts with
  | .AND :: rest =>
    match compileCondition rest with
    | .ok (q2, ⟨r2, h2⟩) =>
      match compileTermLoop (.and q q2) r2 with
      | .ok (q3, ⟨r3, h3⟩) =>
        .ok (q3, ⟨r3, by simp only [List.length_cons]; omega⟩)
      | .error e => .error e
    | .error e => .error e
  | other => .ok (q, ⟨other, Nat.le_refl _⟩)
termination_by ts.length * 8 + 1
decreasing_by all_goals ((try simp only [List.length_cons, List.length_drop]); omega)

/-- Model of `Compiler::compile_term` (compiler.rs lines 506-513). -/
def compileTerm (ts : List Token) :
    Except ParseError (Query × {r : List Token // r.length < ts.length}) :=
  match compileCondition ts with
  | .ok (q, ⟨r, h⟩) =>
    match compileTermLoop q r with
    | .ok (q2, ⟨r2, h2⟩) => .ok (q2, ⟨r2, by omega⟩)
    | .error e => .error e
  | .error e => .error e
termination_by ts.length * 8 + 2
decreasing_by all_goals ((try simp only [List.length_cons, List.length_drop]); omega)

/-- The `while OR` loop of `Compiler::compile_expression` (compiler.rs lines
515-522), with the accumulated left-hand query. -/
def compileExprLoop (q : Query) (ts : List Token) :
    Except ParseError (Query × {r : List Token // r.length ≤ ts.length}) :=
  match ts with
  | .OR :: rest =>
    match compileTerm rest with
    | .ok (q2, ⟨r2, h2⟩) =>
      match compileExprLoop (.or q q2) r2 with
      | .ok (q3, ⟨r3, h3⟩) =>
        .ok (q3, ⟨r3, by simp only [List.length_cons]; omega⟩)
      | .error e => .error e
    | .error e => .error e
  | other => .ok (q, ⟨other, Nat.le_refl _⟩)
termination_by ts.length * 8 + 3
decreasing_by all_goals ((try simp only [List.length_cons, List.length_drop]); omega)

/-- Model of `Compiler::compile_expression` (compiler.rs lines 515-522). -/
def compileExpression (ts : List Token) :
    Except ParseError (Query × {r : List Token // r.length < ts.length}) :=
  match compileTerm ts with
  | .ok (q, ⟨r, h⟩) =>
    match compileExprLoop q r with
    | .ok (q2, ⟨r2, h2⟩) => .ok (q2, ⟨r2, by omega⟩)
    | .error e => .error e
  | .error e => .error e
termination_by ts.length * 8 + 4
decreasing_by all_goals ((try simp only [List.length_cons, List.length_drop]); omega)

end

/-- The top-level token loop of `Compiler::compile` (compiler.rs lines
524-547): starting from `Expr(None, None)`, a `WHERE` fills the left slot of
an `Expr` accumulator (and is otherwise consumed without effect), a regex
token replaces the accumulator and must be the final token, anything else is
an error. -/
def compileLoop (ast : Query) (ts : List Token) : Except ParseError Query :=
  match ts with
  | [] => .ok ast
  | .WHERE :: rest =>
    match ast with
    | .expr _ o =>
      match compileExpression rest with
      | .ok (q, ⟨r2, h2⟩) => compileLoop (.expr (some q) o) r2
      | .error e => .error e
    | other => compileLoop other rest
  | .regex p :: rest =>
    match rest with
    | t :: _ => .error (.unexpectedToken t)
    | [] => compileLoop (.regex p) []
  | t :: _ => .error (.unexpectedToken t)
termination_by ts.length
decreasing_by
  all_goals simp only [List.length_cons]
  all_goals omega

/-- Model of `Compiler::compile` (compiler.rs lines 524-547): tokenize, then
run the top-level loop from `Expr(None, None)`.  `now` is the local time
captured by `Compiler::new`. -/
def compile (now : Int) (program : String) : Except ParseError Query :=
  match tokenize now program with
  | .ok ts => compileLoop (.expr none none) ts
  | .error e => .error e

/-! ## Collection pipeline (logdata.rs) -/

/-- Model of `Inner` (logdata.rs lines 19-24; named `InnerState` here since
Mathlib already declares `Inner`): the shared collection state
guarded by the reader-writer lock.  The record type is a parameter `R`
(`LogString` in the source); the notifier sender is modelled by returning
the sent messages explicitly. -/
structure InnerState (R : Type) where
  lines : List R
  filter : Option Query
  mapping : List Nat

/-- Model of `DataModel::rows` for `LogCollection` (logdata.rs lines
154-156): the mapping length. -/
def InnerState.rows {R : Type} (st : InnerState R) : Nat :=
  st.mapping.length

/-- Models `str::trim().is_empty()`: every character is whitespace.
Rust trims Unicode `White_Space`; the ASCII whitespace classes coincide
with Lean's `Char.isWhitespace` on the inputs of interest. -/
def trimIsEmpty (s : String) : Bool :=
  s.data.all Char.isWhitespace

/-- Model of `LogCollection::set_filter` (logdata.rs lines 107-134).
The result is the returned `Result`, the (unchanged) inner state, and the
list of messages sent to the filter worker's channel — `None` clears the
filter, `Some q` installs a new one.  The source sends `Some` only when
there is no current filter or the newly compiled query differs from it
(`Query.beq`; the snapshot lacks a `PartialEq for Query` impl, modelled as
the structural equality over `Token`'s `PartialEq`). -/
def setFilter {R : Type} (now : Int) (st : InnerState R) (text : String) :
    Except ParseError Unit × InnerState R × List (Option Query) :=
  if trimIsEmpty text then
    (.ok (), st, [none])
  else
    match compile now text with
    | .ok q =>
      match st.filter with
      | none => (.ok (), st, [some q])
      | some cur => if Query.beq cur q then (.ok (), st, []) else (.ok (), st, [some q])
    | .error e => (.error e, st, [])

/-- Model of `LogCollection::header_index` (logdata.rs lines 162-172). -/
def headerIndex (name : String) : Option Nat :=
  if name = "time" then some 0
  else if name = "event" then some 1
  else if name = "duration" then some 2
  else if name = "process" then some 3
  else if name = "OSThread" then some 4
  else if name = "stack" then some 5
  else none

/-- Model of `LogCollection::header_data` (logdata.rs lines 174-184). -/
def headerData (column : Nat) : Option String :=
  match column with
  | 0 => some "time"
  | 1 => some "event"
  | 2 => some "duration"
  | 3 => some "process"
  | 4 => some "OSThread"
  | 5 => some "stack"
  | _ => none

/-! ## Worker interleaving machine (logdata.rs lines 56-105)

The collection spawns an ingest thread (`lines.push` per received record)
and a filter worker (poll the filter channel, clear on a new filter, test
`accept_row(row)` and push `row` into `mapping`).  Each lock-protected
mutation of `Inner` is one atomic step; the worker's cursor `row` is part
of the machine state.  The row test of step `scan` happens under a read
lock before the push; since `lines` is append-only, the bound
`row < lines.length` observed there still holds at the push, so the guard
is placed on the (atomic) push step.
-/

/-- A worker-machine state: the shared `Inner` plus the filter worker's
local cursor `row`. -/
structure WState (R : Type) where
  inner : InnerState R
  row : Nat

/-- One atomic transition of the collection (parametrised by the row
acceptance test, i.e. `Inner::accept_row` with the current filter):
`ingest` models `lines.push(data)` (logdata.rs line 68), `recvFilter`
models the filter-change handling (lines 77-82: replace the filter, clear
the mapping, reset the cursor), and `scan` models one test-and-append
iteration (lines 89-100). -/
inductive WStep {R : Type} (accept : Option Query → R → Bool) :
    WState R → WState R → Prop
  | ingest (lines : List R) (filter : Option Query) (mapping : List Nat)
      (row : Nat) (r : R) :
      WStep accept ⟨⟨lines, filter, mapping⟩, row⟩ ⟨⟨lines ++ [r], filter, mapping⟩, row⟩
  | recvFilter (lines : List R) (filter : Option Query) (mapping : List Nat)
      (row : Nat) (f : Option Query) :
      WStep accept ⟨⟨lines, filter, mapping⟩, row⟩ ⟨⟨lines, f, []⟩, 0⟩
  | scan (lines : List R) (filter : Option Query) (mapping : List Nat)
      (row : Nat) (h : row < lines.length) :
      WStep accept ⟨⟨lines, filter, mapping⟩, row⟩
        ⟨⟨lines, filter,
          if accept filter (lines.get ⟨row, h⟩) then mapping ++ [row] else mapping⟩,
         row + 1⟩

/-- States reachable from the empty collection (`LogCollection::new`:
empty lines, no filter, empty mapping, cursor 0) by any interleaving of
the steps. -/
def WReachable {R : Type} (accept : Option Query → R → Bool) (s : WState R) : Prop :=
  Relation.ReflTransGen (WStep accept) ⟨⟨[], none, []⟩, 0⟩ s

/-! ## File ingestor k-way merge (mod.rs lines 437-497) -/

/-- Merge-level shadow of a record handle: its timestamp (the only datum
the merge inspects) and an inert payload distinguishing records. -/
structure MRec where
  time : Int
  tag : Nat
deriving DecidableEq, Repr

/-- The per-file refill loop (mod.rs lines 455-466): take the next record
of the file, skipping records with `time < from`; `none` when the file is
exhausted. -/
def refillOne (d : Option Int) : List MRec → Option MRec × List MRec
  | [] => (none, [])
  | r :: rs =>
    match d with
    | some dv => if r.time < dv then refillOne d rs else (some r, rs)
    | none => (some r, rs)

/-- The head-refill pass at the top of the merge loop (mod.rs lines
450-467): every empty head slot is refilled from its file. -/
def refillAll (d : Option Int) :
    List (Option MRec) → List (List MRec) → List (Option MRec) × List (List MRec)
  | [], fs => ([], fs)
  | h :: hs, [] => (h :: hs, [])
  | none :: hs, f :: fs =>
    let p1 := refillOne d f
    let p2 := refillAll d hs fs
    (p1.1 :: p2.1, p1.2 :: p2.2)
  | some r :: hs, f :: fs =>
    let p2 := refillAll d hs fs
    (some r :: p2.1, f :: p2.2)

/-- Models `lines.iter().enumerate().filter_map(..)` (mod.rs lines
469-478): the present heads with their slot indices, starting from `n`. -/
def headPairs : Nat → List (Option MRec) → List (Nat × MRec)
  | _, [] => []
  | n, none :: hs => headPairs (n + 1) hs
  | n, some r :: hs => (n, r) :: headPairs (n + 1) hs

/-- Models `Iterator::min_by` on the time comparison (mod.rs lines
479-481): `reduce` with `cmp::min_by`, which keeps the accumulator (the
earlier element) when the comparison is `Less | Equal`. -/
def minByGo : Option (Nat × MRec) → List (Nat × MRec) → Option (Nat × MRec)
  | acc, [] => acc
  | acc, p :: ps =>
    minByGo
      (match acc with
        | none => some p
        | some q => if q.2.time ≤ p.2.time then some q else some p) ps

/-- The selected slot index (`.map(|(index, _)| index)`, mod.rs line 482). -/
def mergeMinIdx (heads : List (Option MRec)) : Option Nat :=
  (minByGo none (headPairs 0 heads)).map (fun p => p.1)

/-- State of one tier's merge: current heads and the unread remainder of
each file. -/
structure MergeSt where
  heads : List (Option MRec)
  files : List (List MRec)
deriving DecidableEq, Repr

/-- One iteration of the merge loop (mod.rs lines 449-496): refill the
empty heads, pick the minimal head, emit it and clear its slot.  `none`
when every head is exhausted (the loop breaks). -/
def mergeEmit (d : Option Int) (st : MergeSt) : Option (Nat × MRec × MergeSt) :=
  let hs := (refillAll d st.heads st.files).1
  let fs := (refillAll d st.heads st.files).2
  match mergeMinIdx hs with
  | some i =>
    match hs.get? i with
    | some (some r) => some (i, r, ⟨hs.set i none, fs⟩)
    | _ => none
  | none => none

/-- A concrete runtime environment (no regex ever matches, trivial
rendering), used to instantiate evaluation at concrete records. -/
def noRegexEnv : REnv := ⟨fun _ _ => false, fun _ => ""⟩

/-- Modelled from the spec: the promotion rule as the specification states
it — a raw text value is promoted to Number iff its entire *trimmed*
content parses as a *finite* 64-bit float.  This definition follows the
spec's words and is compared against `Value.new`, which models the
source. -/
def specTrimmedFiniteNumberRule (s : String) : Bool :=
  match rustParseF64Chars
      (((s.data.dropWhile Char.isWhitespace).reverse.dropWhile Char.isWhitespace).reverse) with
  | some (.finite _ _) => true
  | _ => false

/-- The field map of a record carrying `a=1,a=2` (spec scenario 1), built
through `FieldMap::insert` and `Value::new` as the collection's
`accept_row` does: the key `a` ends up bound to a `MultiValue`. -/
def multiAMap : FieldMap :=
  (FieldMap.new.insert "a" (Value.new "1")).insert "a" (Value.new "2")

/-- A field map binding `b` to the text value `hi` (a record with
`b="hi"`). -/
def textBMap : FieldMap :=
  FieldMap.new.insert "b" (Value.new "hi")

/-! ## Theorems -/



/-- Auxiliary: the tokenizer's fuel is irrelevant as long as it exceeds the
input length, since every `tokenStep` consumes the head character and
leaves a remainder no longer than the tail.  This justifies the
`length + 1` fuel supplied by `tokenize`: the fuel-exhausted branch is
unreachable. -/
theorem tokenizeGo_fuel_sufficient (now : Int) :
    ∀ (f1 : Nat) (f2 : Nat) (cs : List Char), cs.length < f1 → cs.length < f2 →
      tokenizeGo now f1 cs = tokenizeGo now f2 cs := by
  intro f1
  induction f1 with
  | zero => intro f2 cs h1 h2; omega
  | succ a ih =>
    intro f2 cs h1 h2
    match f2 with
    | 0 => omega
    | b + 1 =>
      match cs with
      | [] => rfl
      | c :: rest =>
        simp only [List.length_cons] at h1 h2
        simp only [tokenizeGo]
        cases hS : tokenStep now c rest with
        | error e => rfl
        | ok p =>
          obtain ⟨t, r1, hb⟩ := p
          cases t with
          | some tok => dsimp only; rw [ih b r1 (by omega) (by omega)]
          | none => dsimp only; rw [ih b r1 (by omega) (by omega)]

/-- C10: for every column index `c < 6`, `header_index (header_data c) =
Some c`; for `c ≥ 6`, `header_data c = None`; and `header_index` is `None`
on every name outside the six fixed headers. -/
theorem c10_header_roundtrip :
    (∀ c : Nat, c < 6 → (headerData c).bind headerIndex = some c) ∧
    (∀ c : Nat, 6 ≤ c → headerData c = none) ∧
    (∀ name : String,
      name ∉ (["time", "event", "duration", "process", "OSThread", "stack"] : List String) →
      headerIndex name = none) := by
  refine ⟨?_, ?_, ?_⟩
  · intro c hc
    interval_cases c <;> rfl
  · intro c hc
    match c, hc with
    | n + 6, _ => rfl
  · intro name hn
    simp only [headerIndex]
    split_ifs with h1 h2 h3 h4 h5 h6
    · subst h1; simp at hn
    · subst h2; simp at hn
    · subst h3; simp at hn
    · subst h4; simp at hn
    · subst h5; simp at hn
    · subst h6; simp at hn
    · rfl

/-- Witness for C10 at concrete inputs. -/
theorem c10_witness :
    (headerData 0).bind headerIndex = some 0 ∧ headerData 6 = none ∧
    headerIndex "foo" = none :=
  ⟨c10_header_roundtrip.1 0 (by norm_num),
   c10_header_roundtrip.2.1 6 (Nat.le_refl 6),
   c10_header_roundtrip.2.2 "foo" (by simp)⟩

/-- C6 counterexample: `Value::new "inf"` yields the `Number` variant (Rust
`str::parse::<f64>` accepts `inf`, producing infinity), while the spec's
rule — Number iff the entire trimmed content parses as a *finite* float —
demands `Text` here.  The claim's iff is therefore false at `"inf"`. -/
theorem c6_counterexample :
    Value.new "inf" = Value.number (F64.inf false) ∧
    specTrimmedFiniteNumberRule "inf" = false :=
  ⟨rfl, rfl⟩

/-- C6 (amended): a raw text slice becomes the `Number` variant iff its
entire *untrimmed* content parses under Rust's `f64` grammar — which also
accepts `inf`, `infinity` and `NaN` spellings — and otherwise stays `Text`
with the content unchanged. -/
theorem c6_number_iff_raw_parse (s : String) :
    (∃ v, rustParseF64 s = some v ∧ Value.new s = Value.number v) ∨
    (rustParseF64 s = none ∧ Value.new s = Value.string s) := by
  cases h : rustParseF64 s with
  | some v => exact Or.inl ⟨v, rfl, by simp [Value.new, h]⟩
  | none => exact Or.inr ⟨rfl, by simp [Value.new, h]⟩

/-- C7: the lexer does not implement the documented
`[0-9]+(\.[0-9]+)?` token shape.  On the literal `3.14` it produces TWO
`Number` tokens, 3 and 14: `parse_numeric` stops at the dot and the digit
arm then unconditionally consumes one further character (the dot itself),
instead of a single `Number(3.14)` token. -/
theorem c7_decimal_lexes_as_two_tokens :
    tokenize 0 "3.14" =
      .ok [Token.number (F64.finite 3 1), Token.number (F64.finite 14 1)] :=
  rfl

/-- C2 counterexample: in a record with fields `a=1,a=2` the key `a` is
bound to a `MultiValue` containing the number 2, yet the filter
`WHERE a = 2` rejects the record: `impl PartialEq<f64> for Value` returns
`false` for every non-`Number` variant, including `MultiValue`. -/
theorem c2_counterexample :
    multiAMap.get "a" =
      some (.multiValue [.number (F64.finite 1 1), .number (F64.finite 2 1)]) ∧
    Value.eqF64 (.number (F64.finite 2 1)) (F64.finite 2 1) = true ∧
    Query.accept noRegexEnv
      (.equal (.identifier "a") (.number (F64.finite 2 1))) multiAMap = false :=
  ⟨rfl, rfl, rfl⟩

/-- C2 (amended): when a record's field map binds key `k` to a `Multi`
value, the filter condition `k = lit` REJECTS the record for every string,
number, or date literal — equality on a `MultiValue` is always false; in
particular `WHERE a = 2` does not accept a record with `a=1,a=2`. -/
theorem c2_multi_equality_rejects (env : REnv) (m : FieldMap) (k : String)
    (vs : List Value) (h : m.get k = some (.multiValue vs)) :
    (∀ s, Query.accept env (.equal (.identifier k) (.string s)) m = false) ∧
    (∀ n, Query.accept env (.equal (.identifier k) (.number n)) m = false) ∧
    (∀ d, Query.accept env (.equal (.identifier k) (.date d)) m = false) := by
  refine ⟨fun s => ?_, fun n => ?_, fun d => ?_⟩ <;>
    simp [Query.accept, h, Value.eqString, Value.eqF64, Value.eqDate]

/-- Witness for C2 (amended) at the `a=1,a=2` record. -/
theorem c2_witness :
    Query.accept noRegexEnv
      (.equal (.identifier "a") (.number (F64.finite 2 1))) multiAMap = false :=
  (c2_multi_equality_rejects noRegexEnv multiAMap "a"
    [.number (F64.finite 1 1), .number (F64.finite 2 1)] rfl).2.1 (F64.finite 2 1)

/-- C3 counterexample: with `b` bound to the text `hi`, the condition
`b != 2` (a number literal, so the variants differ) evaluates to TRUE, not
false: Rust's default `ne` is the negation of `eq`, and `eq` is false
across variants. -/
theorem c3_counterexample :
    textBMap.get "b" = some (.string "hi") ∧
    Query.accept noRegexEnv
      (.ne (.identifier "b") (.number (F64.finite 2 1))) textBMap = true :=
  ⟨rfl, rfl⟩

/-- C3 (amended): for every string, number or date literal, whenever key
`k` is present, `k != r` evaluates to the negation of `k = r` — for
matched variants this negates the variant equality, and when the variants
differ it evaluates to TRUE (not false), since `=` is false there. -/
theorem c3_ne_is_negation_of_eq (env : REnv) (m : FieldMap) (k : String)
    (v : Value) (h : m.get k = some v) :
    (∀ s, Query.accept env (.ne (.identifier k) (.string s)) m =
      !(Query.accept env (.equal (.identifier k) (.string s)) m)) ∧
    (∀ n, Query.accept env (.ne (.identifier k) (.number n)) m =
      !(Query.accept env (.equal (.identifier k) (.number n)) m)) ∧
    (∀ d, Query.accept env (.ne (.identifier k) (.date d)) m =
      !(Query.accept env (.equal (.identifier k) (.date d)) m)) ∧
    (∀ n, v.isNumber = false →
      Query.accept env (.ne (.identifier k) (.number n)) m = true) := by
  refine ⟨fun s => ?_, fun n => ?_, fun d => ?_, fun n hv => ?_⟩
  · simp [Query.accept, h]
  · simp [Query.accept, h]
  · simp [Query.accept, h]
  · cases v <;> simp_all [Query.accept, h, Value.eqF64, Value.isNumber]

/-- Witness for C3 (amended) at the `b="hi"` record with a number
literal. -/
theorem c3_witness :
    Query.accept noRegexEnv
      (.ne (.identifier "b") (.number (F64.finite 2 1))) textBMap = true :=
  (c3_ne_is_negation_of_eq noRegexEnv textBMap "b" (.string "hi") rfl).2.2.2
    (F64.finite 2 1) rfl

/-- C4 counterexample: the claim quantifies over every text the compiler
rejects, but a whitespace-only text such as a single tab IS rejected by the
compiler (`tokenize` only skips `' '`, so `'\t'` is an unexpected
character) while `set_filter` returns `Ok` for it and sends a clear-filter
signal — because the empty-after-trim branch runs before compilation. -/
theorem c4_counterexample :
    compile 0 "\t" = .error (.unexpectedChar '\t') ∧
    setFilter (R := String) 0 ⟨[], none, []⟩ "\t" =
      (.ok (), ⟨[], none, []⟩, [none]) :=
  ⟨rfl, rfl⟩

/-- C4 (amended): for every filter text that is NOT whitespace-only and
that the compiler rejects, `set_filter` returns the compile error, leaves
the inner state (current filter and mapping) unchanged, and sends no
signal to the filter worker. -/
theorem c4_rejected_filter_leaves_state (R : Type) (now : Int)
    (st : InnerState R) (text : String) (e : ParseError)
    (h1 : trimIsEmpty text = false) (h2 : compile now text = .error e) :
    setFilter now st text = (.error e, st, []) := by
  simp [setFilter, h1, h2]

/-- Witness for C4 (amended) at the rejected text `"]"`. -/
theorem c4_witness :
    setFilter (R := String) 0 ⟨[], none, []⟩ "]" =
      (.error (.unexpectedChar ']'), ⟨[], none, []⟩, []) :=
  c4_rejected_filter_leaves_state String 0 ⟨[], none, []⟩ "]"
    (.unexpectedChar ']') rfl rfl

/-- C9: `set_filter` on empty or whitespace-only text always returns `Ok`
and always sends a clear-filter signal — even when no filter is currently
set; the worker's reception of that signal is the transition that clears
the mapping and resets the cursor to 0, after which `rows()` (the mapping
length) is smaller than the number of ingested records whenever any
records have been ingested. -/
theorem c9_empty_filter_always_signals_clear (R : Type)
    (accept : Option Query → R → Bool) (now : Int) (s : WState R)
    (text : String) (h : trimIsEmpty text = true) :
    setFilter now s.inner text = (.ok (), s.inner, [(none : Option Query)]) ∧
    WStep accept s ⟨⟨s.inner.lines, none, []⟩, 0⟩ ∧
    (s.inner.lines ≠ [] →
      (⟨s.inner.lines, none, []⟩ : InnerState R).rows < s.inner.lines.length) := by
  obtain ⟨⟨lines, filter, mapping⟩, row⟩ := s
  refine ⟨by simp [setFilter, h], WStep.recvFilter lines filter mapping row none, ?_⟩
  intro hne
  simp only [InnerState.rows, List.length_nil]
  exact List.length_pos.mpr hne

/-- Witness for C9: a collection with one ingested record and no current
filter; whitespace text still signals a clear, and the cleared state shows
0 rows against 1 ingested record. -/
theorem c9_witness :
    setFilter 0 (⟨["r"], none, [0]⟩ : InnerState String) " " =
      (.ok (), ⟨["r"], none, [0]⟩, [(none : Option Query)]) ∧
    WStep (R := String) (fun _ _ => true) ⟨⟨["r"], none, [0]⟩, 1⟩
      ⟨⟨["r"], none, []⟩, 0⟩ ∧
    ((["r"] : List String) ≠ [] →
      (⟨["r"], none, []⟩ : InnerState String).rows < (["r"] : List String).length) :=
  c9_empty_filter_always_signals_clear String (fun _ _ => true) 0
    ⟨⟨["r"], none, [0]⟩, 1⟩ " " rfl

/-- The inductive invariant of the worker machine: the mapping is strictly
increasing, bounded by the worker's cursor, and the cursor never exceeds
the number of ingested records. -/
def WInv {R : Type} (s : WState R) : Prop :=
  s.inner.mapping.Pairwise (· < ·) ∧
  (∀ i ∈ s.inner.mapping, i < s.row) ∧
  s.row ≤ s.inner.lines.length

/-- Auxiliary: every worker step preserves the invariant. -/
theorem wstep_preserves_inv {R : Type} {accept : Option Query → R → Bool}
    {s t : WState R} (hs : WInv s) (hstep : WStep accept s t) : WInv t := by
  cases hstep with
  | ingest lines filter mapping row r =>
    obtain ⟨hp, hb, hr⟩ := hs
    dsimp only [WInv] at hr ⊢
    exact ⟨hp, hb, by simp only [List.length_append, List.length_cons]; omega⟩
  | recvFilter lines filter mapping row f =>
    exact ⟨List.Pairwise.nil, by simp, Nat.zero_le _⟩
  | scan lines filter mapping row h =>
    obtain ⟨hp, hb, hr⟩ := hs
    by_cases ha : accept filter (lines.get ⟨row, h⟩)
    · simp only [WInv, ha, if_true]
      refine ⟨?_, ?_, by omega⟩
      · rw [List.pairwise_append]
        exact ⟨hp, List.pairwise_singleton _ _,
          fun a hma b hmb => by
            simp only [List.mem_singleton] at hmb
            subst hmb
            exact hb a hma⟩
      · intro i hi
        rcases List.mem_append.mp hi with hl | hr2
        · exact Nat.lt_succ_of_lt (hb i hl)
        · simp only [List.mem_singleton] at hr2
          subst hr2
          exact Nat.lt_succ_self _
    · simp only [WInv, ha, if_false]
      exact ⟨hp, fun i hi => Nat.lt_succ_of_lt (hb i hi), by omega⟩

/-- Auxiliary: every reachable worker state satisfies the invariant. -/
theorem wreachable_inv {R : Type} {accept : Option Query → R → Bool}
    {s : WState R} (h : WReachable accept s) : WInv s := by
  induction h with
  | refl => exact ⟨List.Pairwise.nil, by simp, by simp⟩
  | tail h1 step ih => exact wstep_preserves_inv ih step

/-- C1: in every snapshot of the collection's inner state reachable by any
interleaving of the ingest-append step, the filter-worker test-and-append
step, and the filter-change clear step, the mapping vector is strictly
increasing and every element of it is a valid index into the lines
vector. -/
theorem c1_mapping_strictly_increasing_and_valid (R : Type)
    (accept : Option Query → R → Bool) (s : WState R)
    (h : WReachable accept s) :
    s.inner.mapping.Pairwise (· < ·) ∧
    ∀ i ∈ s.inner.mapping, i < s.inner.lines.length := by
  obtain ⟨hp, hb, hr⟩ := wreachable_inv h
  exact ⟨hp, fun i hi => Nat.lt_of_lt_of_le (hb i hi) hr⟩

/-- Witness for C1: the state reached by ingesting one record and scanning
it (with an always-true acceptance test) has mapping `[0]` over one
line. -/
theorem c1_witness :
    (⟨⟨["x"], none, [0]⟩, 1⟩ : WState String).inner.mapping.Pairwise (· < ·) ∧
    ∀ i ∈ (⟨⟨["x"], none, [0]⟩, 1⟩ : WState String).inner.mapping,
      i < (⟨⟨["x"], none, [0]⟩, 1⟩ : WState String).inner.lines.length :=
  c1_mapping_strictly_increasing_and_valid String (fun _ _ => true)
    ⟨⟨["x"], none, [0]⟩, 1⟩
    (Relation.ReflTransGen.tail
      (Relation.ReflTransGen.single (WStep.ingest [] none [] 0 "x"))
      (WStep.scan ["x"] none [] 0 (by norm_num)))

/-- Auxiliary: when the separator does not occur, `read_until`'s loop
consumes the whole remaining input. -/
theorem readUntilReads_all_ne (find : Char) :
    ∀ (l : List Char), (∀ c ∈ l, c ≠ find) → readUntilReads find l = l.length := by
  intro l
  induction l with
  | nil => intro _; rfl
  | cons c rest ih =>
    intro h
    have hc : c ≠ find := h c (List.mem_cons_self c rest)
    simp only [readUntilReads, if_neg hc, List.length_cons]
    rw [ih (fun x hx => h x (List.mem_cons_of_mem c hx))]
    omega

/-- C5 counterexample: on the record text `10:00`, where the mandatory
`-` separator is missing, the record parser does not fail at all — there
is no `MalformedRecord` error anywhere in the code.  `parse_field`
silently returns a truncated `time` field (the input minus its final
byte, because `read_until` treats end-of-input like a consumed separator)
and the next call silently ends iteration with `None`. -/
theorem c5_counterexample :
    Fields.parseField (Fields.new "10:00") =
      some (some ("time", ['1', '0', ':', '0']), ⟨"10:00".data, .duration, 5⟩) ∧
    Fields.parseField (⟨"10:00".data, .duration, 5⟩ : Fields) =
      some (none, ⟨"10:00".data, .duration, 5⟩) :=
  ⟨rfl, rfl⟩

/-- C5 (amended): the record parser reports no error for a missing
mandatory separator.  For every record text of at least two bytes in which
the `-` separator never occurs, `parse_field` silently yields the text
minus its final byte as the `time` field (advancing the cursor to the
end), and the following call returns `None`, quietly ending iteration —
there is no `MalformedRecord` (no error type exists in fields.rs at all;
an unclosed quote makes `read_value` loop forever, modelled by the `none`
outcome of `Fields.readValue`). -/
theorem c5_missing_separator_is_silent (s : String)
    (h1 : ∀ c ∈ s.data, c ≠ '-') (h2 : 2 ≤ s.data.length) :
    Fields.parseField (Fields.new s) =
      some (some ("time", s.data.take (s.data.length - 1)),
        ⟨s.data, .duration, s.data.length⟩) ∧
    Fields.parseField (⟨s.data, .duration, s.data.length⟩ : Fields) =
      some (none, ⟨s.data, .duration, s.data.length⟩) := by
  constructor
  · simp only [Fields.parseField, Fields.new, Fields.readUntil, List.drop_zero]
    rw [readUntilReads_all_ne '-' s.data h1]
    have hz : ¬(s.data.length - 1 = 0) := by omega
    rw [if_neg hz]
    simp
  · simp only [Fields.parseField, Fields.readUntil, List.drop_length]
    simp only [readUntilReads]
    simp

/-- Witness for C5 (amended) at the record text `10:00`. -/
theorem c5_witness :
    Fields.parseField (Fields.new "10:00") =
      some (some ("time", "10:00".data.take ("10:00".data.length - 1)),
        ⟨"10:00".data, .duration, "10:00".data.length⟩) ∧
    Fields.parseField (⟨"10:00".data, .duration, "10:00".data.length⟩ : Fields) =
      some (none, ⟨"10:00".data, .duration, "10:00".data.length⟩) :=
  c5_missing_separator_is_silent "10:00" (by decide) (by decide)

/-- Auxiliary: indices produced by `headPairs` start at the base. -/
theorem headPairs_mem_ge :
    ∀ (hs : List (Option MRec)) (n i : Nat) (r : MRec),
      (i, r) ∈ headPairs n hs → n ≤ i := by
  intro hs
  induction hs with
  | nil => intro n i r h; simp [headPairs] at h
  | cons hd tl ih =>
    intro n i r h
    cases hd with
    | none =>
      simp only [headPairs] at h
      have := ih (n + 1) i r h
      omega
    | some r0 =>
      simp only [headPairs, List.mem_cons] at h
      rcases h with h | h
      · simp only [Prod.mk.injEq] at h
        omega
      · have := ih (n + 1) i r h
        omega

/-- Auxiliary: membership in `headPairs` reflects into `get?`. -/
theorem headPairs_mem_get :
    ∀ (hs : List (Option MRec)) (n i : Nat) (r : MRec),
      (i, r) ∈ headPairs n hs → hs.get? (i - n) = some (some r) := by
  intro hs
  induction hs with
  | nil => intro n i r h; simp [headPairs] at h
  | cons hd tl ih =>
    intro n i r h
    cases hd with
    | none =>
      simp only [headPairs] at h
      have hge := headPairs_mem_ge tl (n + 1) i r h
      have := ih (n + 1) i r h
      have hin : i - n = (i - (n + 1)) + 1 := by omega
      rw [hin]
      simpa using this
    | some r0 =>
      simp only [headPairs, List.mem_cons] at h
      rcases h with h | h
      · simp only [Prod.mk.injEq] at h
        obtain ⟨h1, h2⟩ := h
        subst h2
        have : i - n = 0 := by omega
        rw [this]
        rfl
      · have hge := headPairs_mem_ge tl (n + 1) i r h
        have := ih (n + 1) i r h
        have hin : i - n = (i - (n + 1)) + 1 := by omega
        rw [hin]
        simpa using this

/-- Auxiliary: `get?` hits reflect into `headPairs` membership. -/
theorem headPairs_get_mem :
    ∀ (hs : List (Option MRec)) (n j : Nat) (s : MRec),
      hs.get? j = some (some s) → (n + j, s) ∈ headPairs n hs := by
  intro hs
  induction hs with
  | nil => intro n j s h; simp at h
  | cons hd tl ih =>
    intro n j s h
    cases j with
    | zero =>
      simp only [List.get?] at h
      cases hd with
      | none => simp at h
      | some r0 =>
        simp only [Option.some.injEq] at h
        subst h
        simp [headPairs]
    | succ j2 =>
      simp only [List.get?] at h
      have := ih (n + 1) j2 s h
      cases hd with
      | none =>
        simp only [headPairs]
        have harith : n + (j2 + 1) = (n + 1) + j2 := by omega
        rw [harith]
        exact this
      | some r0 =>
        simp only [headPairs]
        have harith : n + (j2 + 1) = (n + 1) + j2 := by omega
        rw [harith]
        exact List.mem_cons_of_mem _ this

/-- Auxiliary: `headPairs` is strictly increasing in its indices. -/
theorem headPairs_sorted :
    ∀ (hs : List (Option MRec)) (n : Nat),
      (headPairs n hs).Pairwise (fun a b => a.1 < b.1) := by
  intro hs
  induction hs with
  | nil => intro n; simp [headPairs]
  | cons hd tl ih =>
    intro n
    cases hd with
    | none => simpa [headPairs] using ih (n + 1)
    | some r0 =>
      simp only [headPairs]
      refine List.Pairwise.cons ?_ (ih (n + 1))
      intro p hp
      have := headPairs_mem_ge tl (n + 1) p.1 p.2 (by simpa using hp)
      omega

/-- Auxiliary: specification of the `min_by` fold.  If the fold over a
list with strictly increasing indices returns `(i, r)`, then `(i, r)` is
the accumulator or a list element, `r`'s time is minimal among the list
elements and the accumulator, elements with a smaller index have strictly
greater time (the fold keeps the earlier element on ties), and if the
result is not the accumulator it beats the accumulator strictly. -/
theorem minByGo_spec :
    ∀ (l : List (Nat × MRec)) (acc : Option (Nat × MRec)) (i : Nat) (r : MRec),
      minByGo acc l = some (i, r) →
      l.Pairwise (fun a b => a.1 < b.1) →
      (∀ q, acc = some q → ∀ p ∈ l, q.1 < p.1) →
      ((acc = some (i, r) ∨ (i, r) ∈ l) ∧
       (∀ p ∈ l, r.time ≤ p.2.time) ∧
       (∀ q, acc = some q → r.time ≤ q.2.time) ∧
       (∀ p ∈ l, p.1 < i → r.time < p.2.time) ∧
       (∀ q, acc = some q → (i, r) ≠ q → r.time < q.2.time)) := by
  intro l
  induction l with
  | nil =>
    intro acc i r hmin _ _
    simp only [minByGo] at hmin
    refine ⟨Or.inl hmin, by simp, fun q hq => ?_, by simp, fun q hq hne => ?_⟩
    · rw [hq] at hmin
      injection hmin with hmin
      subst hmin
      exact le_refl _
    · rw [hq] at hmin
      injection hmin with hmin
      exact absurd hmin.symm hne
  | cons p ps ih =>
    intro acc i r hmin hsort hacc
    cases hsort with
    | cons hhead htail =>
      cases acc with
      | none =>
        simp only [minByGo] at hmin
        have hacc2 : ∀ q', (some p : Option (Nat × MRec)) = some q' →
            ∀ x ∈ ps, q'.1 < x.1 := by
          intro q' hq' x hx
          injection hq' with hq'
          subst hq'
          exact hhead x hx
        obtain ⟨hm1, hm2, hm3, hm4, hm5⟩ := ih (some p) i r hmin htail hacc2
        refine ⟨?_, ?_, by simp, ?_, by simp⟩
        · rcases hm1 with heq | hmem
          · injection heq with heq
            exact Or.inr (heq ▸ List.mem_cons_self p ps)
          · exact Or.inr (List.mem_cons_of_mem p hmem)
        · intro x hx
          rcases List.mem_cons.mp hx with rfl | hx2
          · exact hm3 x rfl
          · exact hm2 x hx2
        · intro x hx hxi
          rcases List.mem_cons.mp hx with rfl | hx2
          · by_cases hep : (i, r) = x
            · exfalso
              have : x.1 = i := by rw [← hep]
              omega
            · exact hm5 x rfl hep
          · exact hm4 x hx2 hxi
      | some q =>
        simp only [minByGo] at hmin
        by_cases hqp : q.2.time ≤ p.2.time
        · rw [if_pos hqp] at hmin
          have hacc2 : ∀ q', (some q : Option (Nat × MRec)) = some q' →
              ∀ x ∈ ps, q'.1 < x.1 := by
            intro q' hq' x hx
            injection hq' with hq'
            subst hq'
            exact hacc q rfl x (List.mem_cons_of_mem p hx)
          obtain ⟨hm1, hm2, hm3, hm4, hm5⟩ := ih (some q) i r hmin htail hacc2
          refine ⟨?_, ?_, ?_, ?_, ?_⟩
          · rcases hm1 with heq | hmem
            · exact Or.inl heq
            · exact Or.inr (List.mem_cons_of_mem p hmem)
          · intro x hx
            rcases List.mem_cons.mp hx with rfl | hx2
            · exact le_trans (hm3 q rfl) hqp
            · exact hm2 x hx2
          · intro q0 hq0
            injection hq0 with hq0
            subst hq0
            exact hm3 q rfl
          · intro x hx hxi
            rcases List.mem_cons.mp hx with rfl | hx2
            · by_cases hep : (i, r) = q
              · exfalso
                have h1 := hacc q rfl x (List.mem_cons_self x ps)
                have h2 : q.1 = i := by rw [← hep]
                omega
              · exact lt_of_lt_of_le (hm5 q rfl hep) hqp
            · exact hm4 x hx2 hxi
          · intro q0 hq0 hne
            injection hq0 with hq0
            subst hq0
            exact hm5 q rfl hne
        · rw [if_neg hqp] at hmin
          have hp_lt : p.2.time < q.2.time := lt_of_not_le hqp
          have hacc2 : ∀ q', (some p : Option (Nat × MRec)) = some q' →
              ∀ x ∈ ps, q'.1 < x.1 := by
            intro q' hq' x hx
            injection hq' with hq'
            subst hq'
            exact hhead x hx
          obtain ⟨hm1, hm2, hm3, hm4, hm5⟩ := ih (some p) i r hmin htail hacc2
          refine ⟨?_, ?_, ?_, ?_, ?_⟩
          · rcases hm1 with heq | hmem
            · injection heq with heq
              exact Or.inr (heq ▸ List.mem_cons_self p ps)
            · exact Or.inr (List.mem_cons_of_mem p hmem)
          · intro x hx
            rcases List.mem_cons.mp hx with rfl | hx2
            · exact hm3 x rfl
            · exact hm2 x hx2
          · intro q0 hq0
            injection hq0 with hq0
            subst hq0
            exact le_of_lt (lt_of_le_of_lt (hm3 p rfl) hp_lt)
          · intro x hx hxi
            rcases List.mem_cons.mp hx with rfl | hx2
            · by_cases hep : (i, r) = x
              · exfalso
                have : x.1 = i := by rw [← hep]
                omega
              · exact hm5 x rfl hep
            · exact hm4 x hx2 hxi
          · intro q0 hq0 hne
            injection hq0 with hq0
            subst hq0
            exact lt_of_le_of_lt (hm3 p rfl) hp_lt

/-- C8: at every step of a tier's k-way merge, the record emitted is the
head record with the smallest time among the current heads (after the
refill pass, which skips records with `time < from`), and when several
heads tie on the smallest time the record from the earliest file in the
tier's file order is emitted first (elements of earlier slots that are
different from the winner have strictly greater time). -/
theorem c8_merge_emits_min_time_earliest_file (d : Option Int) (st : MergeSt)
    (i : Nat) (r : MRec) (st2 : MergeSt)
    (h : mergeEmit d st = some (i, r, st2)) :
    (refillAll d st.heads st.files).1.get? i = some (some r) ∧
    (∀ j s, (refillAll d st.heads st.files).1.get? j = some (some s) →
      r.time ≤ s.time) ∧
    (∀ j s, j < i → (refillAll d st.heads st.files).1.get? j = some (some s) →
      r.time < s.time) := by
  simp only [mergeEmit, mergeMinIdx] at h
  cases hm : minByGo none (headPairs 0 (refillAll d st.heads st.files).1) with
  | none => rw [hm] at h; simp at h
  | some pr =>
    obtain ⟨i0, r0⟩ := pr
    rw [hm] at h
    simp only [Option.map_some'] at h
    obtain ⟨hm1, hm2, _, hm4, _⟩ :=
      minByGo_spec (headPairs 0 (refillAll d st.heads st.files).1) none i0 r0 hm
        (headPairs_sorted (refillAll d st.heads st.files).1 0) (by simp)
    have hmem : (i0, r0) ∈ headPairs 0 (refillAll d st.heads st.files).1 := by
      rcases hm1 with h' | h'
      · exact absurd h' (by simp)
      · exact h'
    have hget : (refillAll d st.heads st.files).1.get? i0 = some (some r0) := by
      have := headPairs_mem_get (refillAll d st.heads st.files).1 0 i0 r0 hmem
      simpa using this
    rw [hget] at h
    simp only [Option.some.injEq, Prod.mk.injEq] at h
    obtain ⟨hi, hr, _⟩ := h
    subst hi
    subst hr
    refine ⟨hget, ?_, ?_⟩
    · intro j s hj
      have hmem2 := headPairs_get_mem (refillAll d st.heads st.files).1 0 j s hj
      exact hm2 (j, s) (by simpa using hmem2)
    · intro j s hji hj
      have hmem2 := headPairs_get_mem (refillAll d st.heads st.files).1 0 j s hj
      exact hm4 (j, s) (by simpa using hmem2) (by simpa using hji)

/-- Witness for C8: a tier of two files whose head records tie at time 5;
the merge emits slot 0 (the earliest file), and the minimality conclusions
hold at both slots. -/
theorem c8_witness :
    (refillAll none ([none, none] : List (Option MRec))
        [[⟨5, 0⟩], [⟨5, 1⟩]]).1.get? 0 = some (some (⟨5, 0⟩ : MRec)) ∧
    (⟨5, 0⟩ : MRec).time ≤ (⟨5, 1⟩ : MRec).time :=
  ⟨(c8_merge_emits_min_time_earliest_file none ⟨[none, none], [[⟨5, 0⟩], [⟨5, 1⟩]]⟩
      0 ⟨5, 0⟩ ⟨[none, some ⟨5, 1⟩], [[], []]⟩ rfl).1,
   (c8_merge_emits_min_time_earliest_file none ⟨[none, none], [[⟨5, 0⟩], [⟨5, 1⟩]]⟩
      0 ⟨5, 0⟩ ⟨[none, some ⟨5, 1⟩], [[], []]⟩ rfl).2.1 1 ⟨5, 1⟩ rfl⟩
